import Mathlib

/-!
# Kernel version handling of `pkg/kernels/kernels.go`

A shallow embedding of the Go package `kernels`.

* Go strings are modelled as `List Char`.  Every separator the package looks
  for (`-`, `+`, `.`, the decimal digits, the sign characters) is ASCII, so on
  UTF-8 text the byte-level library functions act on characters exactly as
  modelled here.
* Go `int64` / `int` values are modelled as `Int`; arithmetic that can
  overflow is wrapped explicitly with `wrapInt64`.
* The operating system (the signature file, `uname`), the process-wide
  configuration and the capability probes are explicit parameters.
-/

namespace Kernels

/-! ## Library functions used by the package -/

/-- Go `strings.Split(s, sep)` for a one-character separator: the pieces of
`s` between the occurrences of `sep`; never an empty list. -/
def Split (sep : Char) : List Char → List (List Char)
  | [] => [[]]
  | c :: cs =>
    if c = sep then [] :: Split sep cs
    else
      match Split sep cs with
      | [] => [[c]]
      | piece :: rest => (c :: piece) :: rest

/-- Go `strings.TrimRight(s, cutset)` for a one-character cutset: `s` without
its trailing run of `cut`. -/
def TrimRight (s : List Char) (cut : Char) : List Char :=
  (s.reverse.dropWhile (fun c => c == cut)).reverse

/-- Go `strings.TrimSuffix(s, suffix)` for a one-character suffix: at most one
trailing `suf` is removed. -/
def TrimSuffix (s : List Char) (suf : Char) : List Char :=
  match s.reverse with
  | [] => s
  | c :: rest => if c = suf then rest.reverse else s

/-- Go `unicode.IsSpace`: the Latin-1 spaces and the characters with the
Unicode White_Space property. -/
def isSpace (c : Char) : Bool :=
  let n := c.toNat
  n == 0x09 || n == 0x0a || n == 0x0b || n == 0x0c || n == 0x0d || n == 0x20 ||
  n == 0x85 || n == 0xa0 || n == 0x1680 || (0x2000 ≤ n && n ≤ 0x200a) ||
  n == 0x2028 || n == 0x2029 || n == 0x202f || n == 0x205f || n == 0x3000

/-- The scanning loop of Go `strings.Fields`: `cur` is the field being read
(reversed), the list is the unread input. -/
def fieldsLoop : List Char → List Char → List (List Char)
  | cur, [] => if cur = [] then [] else [cur.reverse]
  | cur, c :: cs =>
    if isSpace c then
      (if cur = [] then fieldsLoop [] cs else cur.reverse :: fieldsLoop [] cs)
    else fieldsLoop (c :: cur) cs

/-- Go `strings.Fields(s)`: the maximal runs of non-space characters of `s`. -/
def Fields (s : List Char) : List (List Char) := fieldsLoop [] s

/-- Go `unix.ByteSliceToString`: the text up to the first NUL. -/
def ByteSliceToString (raw : List Char) : List Char :=
  raw.takeWhile (fun c => c != Char.ofNat 0)

/-- The two kinds of `strconv.NumError`. -/
inductive NumError where
  | ErrSyntax
  | ErrRange
  deriving DecidableEq, Repr

/-- The value of a decimal digit, as the digit loop of `strconv.ParseUint`
reads it in base 10 (letters and every other character are rejected). -/
def digitVal (c : Char) : Option Nat :=
  if 48 ≤ c.toNat ∧ c.toNat ≤ 57 then some (c.toNat - 48) else none

/-- The largest `uint64`. -/
def maxUint64 : Nat := 2 ^ 64 - 1

/-- The digit loop of `strconv.ParseUint(s, 10, bitSize)`, `n` being the value
read so far. -/
def parseUintLoop (bitSize : Nat) : Nat → List Char → Except NumError Nat
  | n, [] => .ok n
  | n, c :: cs =>
    match digitVal c with
    | none => .error .ErrSyntax
    | some d =>
      if n ≥ maxUint64 / 10 + 1 then .error .ErrRange
      else
        let n1 := n * 10 + d
        if n1 > maxUint64 ∨ n1 > 2 ^ bitSize - 1 then .error .ErrRange
        else parseUintLoop bitSize n1 cs

/-- Go `strconv.ParseUint(s, 10, bitSize)`. -/
def ParseUint (s : List Char) (bitSize : Nat) : Except NumError Nat :=
  if s = [] then .error .ErrSyntax else parseUintLoop bitSize 0 s

/-- The range check of `strconv.ParseInt` on the magnitude `un`. -/
def signedOfMagnitude (neg : Bool) (un : Nat) (bitSize : Nat) : Except NumError Int :=
  let cutoff := 2 ^ (bitSize - 1)
  if !neg && un ≥ cutoff then .error .ErrRange
  else if neg && un > cutoff then .error .ErrRange
  else .ok (if neg then -(un : Int) else (un : Int))

/-- Go `strconv.ParseInt(s, 10, bitSize)`: an optional sign, then decimal
digits; an error when the text is not a number or does not fit. -/
def ParseInt (s : List Char) (bitSize : Nat) : Except NumError Int :=
  match s with
  | [] => .error .ErrSyntax
  | c :: cs =>
    let neg := c == '-'
    let body := if c = '+' ∨ c = '-' then cs else c :: cs
    match ParseUint body bitSize with
    | .error .ErrSyntax => .error .ErrSyntax
    | .error .ErrRange => signedOfMagnitude neg (2 ^ bitSize - 1) bitSize
    | .ok un => signedOfMagnitude neg un bitSize

/-- Two's-complement wrap-around of `int64` arithmetic. -/
def wrapInt64 (x : Int) : Int := (x + 2 ^ 63) % 2 ^ 64 - 2 ^ 63

/-! ## The package -/

/-- The strings `majorS`, `minorS`, `patchS` of `KernelStringToNumeric`. -/
def versionParts (ver : List Char) : List Char × List Char × List Char :=
  let release := Split '-' ver
  let verStr := release.headD []
  let numeric := TrimRight verStr '+'
  let vers := Split '.' numeric
  let majorS := vers.headD []
  let minorS := if vers.length ≥ 2 then vers.getD 1 [] else []
  let patchS := if vers.length ≥ 3 then vers.getD 2 [] else []
  (majorS, minorS, patchS)

/-- `KernelStringToNumeric` of `kernels.go`. -/
def KernelStringToNumeric (ver : List Char) : Int :=
  let (majorS, minorS, patchS) := versionParts ver
  match ParseInt majorS 32 with
  | .error _ => 0
  | .ok major =>
    let minor := match ParseInt minorS 32 with
      | .error _ => 0
      | .ok m => m
    let patch := match ParseInt patchS 32 with
      | .error _ => 0
      | .ok p => p
    wrapInt64 (wrapInt64 (wrapInt64 (major * 2 ^ 16) + wrapInt64 (minor * 2 ^ 8)) + patch)

/-- Go `int(x)` for an `int64` value `x`; `int` is 64 bits wide on the
platforms the agent is built for (amd64, arm64). -/
def toInt (x : Int) : Int := wrapInt64 x

/-- Go `int64(x)` for an `int` value `x`. -/
def toInt64 (x : Int) : Int := wrapInt64 x

/-- What the package asks of the operating system: `os.ReadFile` (`none` when
the read fails) and `unix.Uname` (`none` when the call fails, otherwise the
bytes of the `Release` field). -/
structure Host where
  readFile : List Char → Option (List Char)
  uname : Option (List Char)

/-- A Go `error` value; `none` is `nil`. -/
abbrev GoError := Option Unit

/-- `GetKernelVersion` of `kernels.go`. -/
def GetKernelVersion (host : Host) (kernelVersion procfs : List Char) :
    Int × List Char × GoError :=
  if kernelVersion ≠ [] then
    (toInt (KernelStringToNumeric kernelVersion), kernelVersion, none)
  else
    let versionStrings : List (List Char) :=
      match host.readFile (procfs ++ "/version_signature".toList) with
      | some versionSig => Fields versionSig
      | none => []
    if versionStrings.length > 0 then
      (toInt (KernelStringToNumeric (versionStrings.getD (versionStrings.length - 1) [])),
        versionStrings.getD (versionStrings.length - 1) [], none)
    else
      match host.uname with
      | none => (0, "unknown".toList, none)
      | some raw =>
        let release := ByteSliceToString raw
        ((toInt (KernelStringToNumeric release)), (Split '-' release).headD [], none)

/-- `FixKernelVersion` of `kernels.go`; `&` and `|` are the two's-complement
operations `Int.land` and `Int.lor`. -/
def FixKernelVersion (version : Int) : Int :=
  if Int.land version 0xffff00 = 267008 then
    let sublevel := Int.land version 0xff
    if sublevel ≥ 221 ∧ sublevel ≤ 231 then Int.lor version 0xff else version
  else version

/-- `MinKernelVersion` of `kernels.go`. -/
def MinKernelVersion (host : Host) (kernel : List Char) : Bool :=
  match host.uname with
  | none => true
  | some raw =>
    let release := TrimSuffix ((Split '-' (ByteSliceToString raw)).headD []) '+'
    let runningVersion := toInt (KernelStringToNumeric release)
    let minVersion := toInt (KernelStringToNumeric kernel)
    decide (minVersion ≤ runningVersion)

/-- The fields of `option.Config` the package reads. -/
structure Config where
  ForceSmallProgs : Bool
  ForceLargeProgs : Bool
  KernelVersion : List Char
  ProcFS : List Char

/-- The results of the capability probes `bpf.HasProgramLargeSize` and
`bpf.HasSignalHelper`. -/
structure Probes where
  HasProgramLargeSize : Bool
  HasSignalHelper : Bool

/-- `EnableV61Progs` of `kernels.go`. -/
def EnableV61Progs (host : Host) (cfg : Config) : Bool :=
  if cfg.ForceSmallProgs then false
  else
    let kernelVer := (GetKernelVersion host cfg.KernelVersion cfg.ProcFS).1
    decide (toInt64 kernelVer ≥ KernelStringToNumeric "6.1.0".toList)

/-- `EnableLargeProgs` of `kernels.go`. -/
def EnableLargeProgs (cfg : Config) (probes : Probes) : Bool :=
  if cfg.ForceSmallProgs then false
  else if cfg.ForceLargeProgs then true
  else probes.HasProgramLargeSize && probes.HasSignalHelper

/-- `IsKernelVersionLessThan` of `kernels.go`. -/
def IsKernelVersionLessThan (host : Host) (cfg : Config) (version : List Char) : Bool :=
  let kernelVer := (GetKernelVersion host cfg.KernelVersion cfg.ProcFS).1
  decide (toInt64 kernelVer < KernelStringToNumeric version)

/-- `GenericKprobeObjs` of `kernels.go`. -/
def GenericKprobeObjs (host : Host) (cfg : Config) (probes : Probes) :
    List Char × List Char :=
  if EnableV61Progs host cfg then
    ("bpf_generic_kprobe_v61.o".toList, "bpf_generic_retkprobe_v61.o".toList)
  else if EnableLargeProgs cfg probes then
    ("bpf_generic_kprobe_v53.o".toList, "bpf_generic_retkprobe_v53.o".toList)
  else ("bpf_generic_kprobe.o".toList, "bpf_generic_retkprobe.o".toList)

/-! ## Specification-side vocabulary -/

/-- The decimal writing of a natural number. -/
def decimal (n : Nat) : List Char := (Nat.repr n).toList

/-- The text `"MAJOR.MINOR.PATCH"`. -/
def dotted3 (major minor patch : Nat) : List Char :=
  decimal major ++ '.' :: (decimal minor ++ '.' :: decimal patch)

/-- The text `"MAJOR.MINOR"`. -/
def dotted2 (major minor : Nat) : List Char :=
  decimal major ++ '.' :: decimal minor

/-- The major component as the specification words it: the text before the
first `.` of the first `-`-separated segment with its trailing `+` removed. -/
def majorComponent (ver : List Char) : List Char :=
  (TrimRight (ver.takeWhile (fun c => c != '-')) '+').takeWhile (fun c => c != '.')

/-- The last whitespace-separated token of a text: drop the trailing spaces,
then keep the trailing run of non-space characters. -/
def lastToken (s : List Char) : List Char :=
  ((s.reverse.dropWhile isSpace).takeWhile (fun c => !isSpace c)).reverse

/-- The text `t` is the last whitespace-separated token of `s`: a non-empty
run of non-space characters, followed only by spaces, and preceded by a space
or by nothing. -/
def IsLastToken (s t : List Char) : Prop :=
  ∃ pre post, s = pre ++ t ++ post ∧ t ≠ [] ∧ (∀ c ∈ t, isSpace c = false) ∧
    (∀ c ∈ post, isSpace c = true) ∧
    (pre = [] ∨ ∃ p w, pre = p ++ [w] ∧ isSpace w = true)

/-- What a minor or patch string contributes: its value when it parses, 0
when it is absent or does not parse. -/
def componentOrZero (s : List Char) : Int :=
  match ParseInt s 32 with
  | .error _ => 0
  | .ok v => v

/-- The major component is absent or does not parse as a base-10 32-bit
integer. -/
def majorUnparsable (ver : List Char) : Prop :=
  majorComponent ver = [] ∨ ∃ e, ParseInt (majorComponent ver) 32 = .error e

/-- The decimal digits of `n`, most significant first. -/
def decDigits (n : Nat) : List Char :=
  if n < 10 then [Nat.digitChar n] else decDigits (n / 10) ++ [Nat.digitChar (n % 10)]
decreasing_by omega

/-- The signature file yields no token: it is unreadable, empty, or holds only
white space. -/
def signatureTokenless (host : Host) (procfs : List Char) : Prop :=
  match host.readFile (procfs ++ "/version_signature".toList) with
  | none => True
  | some contents => ∀ c ∈ contents, isSpace c = true

/-- The three artifact pairs `GenericKprobeObjs` chooses from. -/
def v61Pair : List Char × List Char :=
  ("bpf_generic_kprobe_v61.o".toList, "bpf_generic_retkprobe_v61.o".toList)

/-- The pair for kernels that take large programs. -/
def v53Pair : List Char × List Char :=
  ("bpf_generic_kprobe_v53.o".toList, "bpf_generic_retkprobe_v53.o".toList)

/-- The baseline pair. -/
def basePair : List Char × List Char :=
  ("bpf_generic_kprobe.o".toList, "bpf_generic_retkprobe.o".toList)

/-! ## Splitting and trimming -/

theorem Split_ne_nil (sep : Char) (s : List Char) : Split sep s ≠ [] := by
  induction s with
  | nil => simp [Split]
  | cons c cs ih =>
    unfold Split
    split
    · simp
    · split <;> simp

theorem Split_of_not_mem (sep : Char) (s : List Char) (h : sep ∉ s) :
    Split sep s = [s] := by
  induction s with
  | nil => rfl
  | cons c cs ih =>
    have hc : ¬ c = sep := fun e => h (by simp [e])
    have hcs : sep ∉ cs := fun e => h (by simp [e])
    simp [Split, hc, ih hcs]

theorem Split_append_sep (sep : Char) (a b : List Char) (h : sep ∉ a) :
    Split sep (a ++ sep :: b) = a :: Split sep b := by
  induction a with
  | nil => simp [Split]
  | cons c cs ih =>
    have hc : ¬ c = sep := fun e => h (by simp [e])
    have hcs : sep ∉ cs := fun e => h (by simp [e])
    simp [Split, hc, ih hcs]

theorem headD_Split (sep : Char) (s : List Char) :
    (Split sep s).headD [] = s.takeWhile (fun c => c != sep) := by
  induction s with
  | nil => rfl
  | cons c cs ih =>
    by_cases hc : c = sep
    · simp [Split, hc]
    · have hne := Split_ne_nil sep cs
      cases hs : Split sep cs with
      | nil => exact absurd hs hne
      | cons piece rest =>
        rw [hs] at ih
        simp only [List.headD_cons] at ih
        simp [Split, hc, hs, ih]

theorem takeWhile_append_sep (sep : Char) (a b : List Char) (h : sep ∉ a) :
    (a ++ sep :: b).takeWhile (fun c => c != sep) = a := by
  induction a with
  | nil => simp
  | cons c cs ih =>
    have hc : ¬ c = sep := fun e => h (by simp [e])
    have hcs : sep ∉ cs := fun e => h (by simp [e])
    simp [hc, ih hcs]

theorem takeWhile_of_not_mem (sep : Char) (a : List Char) (h : sep ∉ a) :
    a.takeWhile (fun c => c != sep) = a := by
  induction a with
  | nil => simp
  | cons c cs ih =>
    have hc : ¬ c = sep := fun e => h (by simp [e])
    have hcs : sep ∉ cs := fun e => h (by simp [e])
    simp [hc, ih hcs]

theorem TrimRight_snoc_ne (a : List Char) (x cut : Char) (h : x ≠ cut) :
    TrimRight (a ++ [x]) cut = a ++ [x] := by
  simp [TrimRight, List.dropWhile, h]

theorem TrimRight_append_replicate (s : List Char) (cut : Char) (n : Nat) :
    TrimRight (s ++ List.replicate n cut) cut = TrimRight s cut := by
  induction n with
  | zero => simp
  | succ k ih =>
    rw [List.replicate_succ', ← List.append_assoc]
    rw [← ih]
    simp [TrimRight, List.dropWhile]

/-! ## Decimal digits -/

theorem toDigitsCore_eq_decDigits (fuel : Nat) :
    ∀ (n : Nat) (acc : List Char), n < fuel →
      Nat.toDigitsCore 10 fuel n acc = decDigits n ++ acc := by
  induction fuel with
  | zero => intro n acc h; omega
  | succ fuel ih =>
    intro n acc h
    rw [decDigits]
    simp only [Nat.toDigitsCore]
    by_cases h10 : n < 10
    · have h0 : n / 10 = 0 := by omega
      have hm : n % 10 = n := by omega
      simp [h0, hm, h10]
    · have h0 : ¬ n / 10 = 0 := by omega
      simp only [h0, h10, if_false]
      rw [ih (n / 10) _ (by omega)]
      simp

theorem decimal_eq_decDigits (n : Nat) : decimal n = decDigits n := by
  have h := toDigitsCore_eq_decDigits (n + 1) n [] (by omega)
  simpa [decimal, Nat.repr, Nat.toDigits] using h

theorem digitVal_digitChar (d : Nat) (h : d < 10) : digitVal (Nat.digitChar d) = some d := by
  interval_cases d <;> decide

theorem decDigits_snoc (n : Nat) : ∃ a, decDigits n = a ++ [Nat.digitChar (n % 10)] := by
  rw [decDigits]
  by_cases h10 : n < 10
  · exact ⟨[], by simp [h10, Nat.mod_eq_of_lt h10]⟩
  · exact ⟨decDigits (n / 10), by simp [h10]⟩

theorem decDigits_ne_nil (n : Nat) : decDigits n ≠ [] := by
  obtain ⟨a, ha⟩ := decDigits_snoc n
  rw [ha]; simp

theorem decDigits_digit (n : Nat) : ∀ c ∈ decDigits n, ∃ d, d < 10 ∧ c = Nat.digitChar d := by
  induction n using Nat.strong_induction_on with
  | _ n ih =>
    intro c hc
    rw [decDigits] at hc
    by_cases h10 : n < 10
    · simp only [h10, if_true, List.mem_singleton] at hc
      exact ⟨n, h10, hc⟩
    · simp only [h10, if_false, List.mem_append, List.mem_singleton] at hc
      rcases hc with hc | hc
      · exact ih (n / 10) (by omega) c hc
      · exact ⟨n % 10, by omega, hc⟩

theorem digitChar_ne (d : Nat) (h : d < 10) :
    Nat.digitChar d ≠ '.' ∧ Nat.digitChar d ≠ '-' ∧ Nat.digitChar d ≠ '+' := by
  interval_cases d <;> decide

theorem dot_not_mem_decDigits (n : Nat) : '.' ∉ decDigits n := by
  intro h
  obtain ⟨d, hd, e⟩ := decDigits_digit n _ h
  exact (digitChar_ne d hd).1 e.symm

theorem dash_not_mem_decDigits (n : Nat) : '-' ∉ decDigits n := by
  intro h
  obtain ⟨d, hd, e⟩ := decDigits_digit n _ h
  exact (digitChar_ne d hd).2.1 e.symm

theorem parseUintLoop_cons (k d : Nat) (c : Char) (cs : List Char)
    (hc : digitVal c = some d) (hb : k * 10 + d < 2 ^ 32) :
    parseUintLoop 32 k (c :: cs) = parseUintLoop 32 (k * 10 + d) cs := by
  have h1 : ¬ k ≥ maxUint64 / 10 + 1 := by simp only [maxUint64]; omega
  have h2 : ¬ (k * 10 + d > maxUint64 ∨ k * 10 + d > 2 ^ 32 - 1) := by
    simp only [maxUint64]; omega
  simp only [parseUintLoop, hc]
  rw [if_neg h1, if_neg h2]

theorem parseUintLoop_cons_ok (k m : Nat) (c : Char) (cs : List Char)
    (h : parseUintLoop 32 k (c :: cs) = .ok m) :
    ∃ d, digitVal c = some d ∧ k * 10 + d < 2 ^ 32 ∧
      parseUintLoop 32 (k * 10 + d) cs = .ok m := by
  simp only [parseUintLoop] at h
  cases hy : digitVal c with
  | none => simp [hy] at h
  | some e =>
    simp only [hy] at h
    by_cases h1 : k ≥ maxUint64 / 10 + 1
    · rw [if_pos h1] at h; cases h
    · rw [if_neg h1] at h
      by_cases h2 : k * 10 + e > maxUint64 ∨ k * 10 + e > 2 ^ 32 - 1
      · rw [if_pos h2] at h; cases h
      · rw [if_neg h2] at h
        refine ⟨e, rfl, ?_, h⟩
        simp only [maxUint64] at h2
        omega

theorem parseUintLoop_snoc (k m d : Nat) (c : Char) (xs : List Char)
    (hx : parseUintLoop 32 k xs = .ok m) (hc : digitVal c = some d)
    (hb : m * 10 + d < 2 ^ 32) :
    parseUintLoop 32 k (xs ++ [c]) = .ok (m * 10 + d) := by
  induction xs generalizing k with
  | nil =>
    simp only [parseUintLoop, Except.ok.injEq] at hx
    subst hx
    rw [List.nil_append, parseUintLoop_cons k d c [] hc hb]
    rfl
  | cons y ys ih =>
    obtain ⟨e, hy, hbe, hrest⟩ := parseUintLoop_cons_ok k m y ys hx
    rw [List.cons_append, parseUintLoop_cons k e y _ hy hbe]
    exact ih _ hrest

theorem parseUintLoop_decDigits (n : Nat) (h : n < 2 ^ 32) :
    parseUintLoop 32 0 (decDigits n) = .ok n := by
  induction n using Nat.strong_induction_on with
  | _ n ih =>
    rw [decDigits]
    by_cases h10 : n < 10
    · rw [if_pos h10, parseUintLoop_cons 0 n _ [] (digitVal_digitChar n h10) (by omega)]
      simp [parseUintLoop]
    · rw [if_neg h10]
      have hrec := ih (n / 10) (by omega) (by omega)
      have := parseUintLoop_snoc 0 (n / 10) (n % 10) _ _ hrec
        (digitVal_digitChar (n % 10) (by omega)) (by omega)
      rw [this]
      congr 1
      omega

theorem ParseInt_decDigits (n : Nat) (h : n < 2 ^ 31) :
    ParseInt (decDigits n) 32 = .ok (n : Int) := by
  have hp := parseUintLoop_decDigits n (by omega)
  have hne := decDigits_ne_nil n
  cases hd : decDigits n with
  | nil => exact absurd hd hne
  | cons c cs =>
    have hmem : c ∈ decDigits n := by rw [hd]; simp
    obtain ⟨d, hd10, e⟩ := decDigits_digit n c hmem
    have hcne := digitChar_ne d hd10
    rw [← e] at hcne
    rw [hd] at hp
    have hlt : n < 2147483648 := by omega
    simp [ParseInt, hcne.2.1, hcne.2.2, ParseUint, hp, signedOfMagnitude, hlt]

/-! ## The encoding of well-formed versions -/

theorem wrapInt64_of_range (x : Int) (h0 : -2 ^ 63 ≤ x) (h1 : x < 2 ^ 63) :
    wrapInt64 x = x := by
  unfold wrapInt64
  omega

theorem pack_no_wrap (major minor patch : Int)
    (hM : 0 ≤ major ∧ major < 2 ^ 31) (hN : 0 ≤ minor ∧ minor < 2 ^ 31)
    (hP : 0 ≤ patch ∧ patch < 2 ^ 31) :
    wrapInt64 (wrapInt64 (wrapInt64 (major * 2 ^ 16) + wrapInt64 (minor * 2 ^ 8)) + patch)
      = major * 65536 + minor * 256 + patch := by
  rw [wrapInt64_of_range (major * 2 ^ 16) (by omega) (by omega),
    wrapInt64_of_range (minor * 2 ^ 8) (by omega) (by omega),
    wrapInt64_of_range (major * 2 ^ 16 + minor * 2 ^ 8) (by omega) (by omega),
    wrapInt64_of_range _ (by omega) (by omega)]
  omega

theorem TrimRight_decDigits_suffix (a : List Char) (n : Nat) :
    TrimRight (a ++ decDigits n) '+' = a ++ decDigits n := by
  obtain ⟨b, hb⟩ := decDigits_snoc n
  rw [hb, ← List.append_assoc]
  exact TrimRight_snoc_ne _ _ _ (digitChar_ne (n % 10) (Nat.mod_lt _ (by decide))).2.2

theorem versionParts_dotted3 (M N P : Nat) :
    versionParts (dotted3 M N P) = (decDigits M, decDigits N, decDigits P) := by
  have hdash : '-' ∉ dotted3 M N P := by
    simp only [dotted3, decimal_eq_decDigits, List.mem_append, List.mem_cons]
    have h1 := dash_not_mem_decDigits M
    have h2 := dash_not_mem_decDigits N
    have h3 := dash_not_mem_decDigits P
    have : ¬ ('-' = '.') := by decide
    tauto
  have htrim : TrimRight (dotted3 M N P) '+' = dotted3 M N P := by
    have := TrimRight_decDigits_suffix (decDigits M ++ '.' :: (decDigits N ++ ['.'])) P
    simpa [dotted3, decimal_eq_decDigits] using this
  have hsplit : Split '.' (dotted3 M N P) = [decDigits M, decDigits N, decDigits P] := by
    simp only [dotted3, decimal_eq_decDigits]
    rw [Split_append_sep _ _ _ (dot_not_mem_decDigits M),
      Split_append_sep _ _ _ (dot_not_mem_decDigits N),
      Split_of_not_mem _ _ (dot_not_mem_decDigits P)]
  simp [versionParts, Split_of_not_mem _ _ hdash, htrim, hsplit]

theorem KernelStringToNumeric_dotted3 (M N P : Nat)
    (hM : M < 2 ^ 31) (hN : N < 2 ^ 31) (hP : P < 2 ^ 31) :
    KernelStringToNumeric (dotted3 M N P) = (M : Int) * 65536 + (N : Int) * 256 + (P : Int) := by
  simp only [KernelStringToNumeric, versionParts_dotted3, ParseInt_decDigits M hM,
    ParseInt_decDigits N hN, ParseInt_decDigits P hP]
  exact pack_no_wrap _ _ _ (by omega) (by omega) (by omega)

/-- C1: for MAJOR, MINOR, PATCH in [0,255], the encoding `v` of the text
"MAJOR.MINOR.PATCH" decodes back: `(v >> 16) & 0xff = MAJOR`,
`(v >> 8) & 0xff = MINOR`, `v & 0xff = PATCH`, and `v` has no bits above
bit 23 (it lies in `[0, 2^24)` and `v >> 24 = 0`). -/
theorem KernelStringToNumeric_roundtrip (M N P : Nat)
    (hM : M ≤ 255) (hN : N ≤ 255) (hP : P ≤ 255) :
    Int.land (Int.shiftRight (KernelStringToNumeric (dotted3 M N P)) 16) 0xff = (M : Int) ∧
    Int.land (Int.shiftRight (KernelStringToNumeric (dotted3 M N P)) 8) 0xff = (N : Int) ∧
    Int.land (KernelStringToNumeric (dotted3 M N P)) 0xff = (P : Int) ∧
    0 ≤ KernelStringToNumeric (dotted3 M N P) ∧
    KernelStringToNumeric (dotted3 M N P) < 2 ^ 24 ∧
    Int.shiftRight (KernelStringToNumeric (dotted3 M N P)) 24 = 0 := by
  have hv : KernelStringToNumeric (dotted3 M N P) = ((M * 65536 + N * 256 + P : Nat) : Int) := by
    rw [KernelStringToNumeric_dotted3 M N P (by omega) (by omega) (by omega)]
    push_cast
    rfl
  rw [hv]
  have hand : ∀ x : Nat, x &&& 255 = x % 256 := fun x => Nat.and_pow_two_sub_one_eq_mod x 8
  have h16 : (M * 65536 + N * 256 + P) >>> 16 = M := by
    rw [Nat.shiftRight_eq_div_pow]; omega
  have h8 : (M * 65536 + N * 256 + P) >>> 8 = M * 256 + N := by
    rw [Nat.shiftRight_eq_div_pow]; omega
  have h24 : (M * 65536 + N * 256 + P) >>> 24 = 0 := by
    rw [Nat.shiftRight_eq_div_pow]; omega
  refine ⟨?_, ?_, ?_, ?_, ?_, ?_⟩
  · show (((M * 65536 + N * 256 + P) >>> 16 &&& 255 : Nat) : Int) = M
    rw [h16, hand]; congr 1; omega
  · show (((M * 65536 + N * 256 + P) >>> 8 &&& 255 : Nat) : Int) = N
    rw [h8, hand]; congr 1; omega
  · show (((M * 65536 + N * 256 + P) &&& 255 : Nat) : Int) = P
    rw [hand]; congr 1; omega
  · omega
  · omega
  · show (((M * 65536 + N * 256 + P) >>> 24 : Nat) : Int) = 0
    rw [h24]; rfl

theorem KernelStringToNumeric_roundtrip_witness :
    (4 ≤ 255 ∧ 19 ≤ 255 ∧ 225 ≤ 255) ∧ dotted3 4 19 225 = "4.19.225".toList ∧
    Int.land (KernelStringToNumeric (dotted3 4 19 225)) 0xff = ((225 : Nat) : Int) :=
  ⟨by decide, by decide,
    (KernelStringToNumeric_roundtrip 4 19 225 (by decide) (by decide) (by decide)).2.2.1⟩

/-- C2: for two well-formed versions with components in [0,255], if
(M1,N1,P1) is lexicographically less than (M2,N2,P2) then the encoding of
"M1.N1.P1" is less than the encoding of "M2.N2.P2". -/
theorem KernelStringToNumeric_monotone (M1 N1 P1 M2 N2 P2 : Nat)
    (h1 : M1 ≤ 255 ∧ N1 ≤ 255 ∧ P1 ≤ 255) (h2 : M2 ≤ 255 ∧ N2 ≤ 255 ∧ P2 ≤ 255)
    (hlt : M1 < M2 ∨ (M1 = M2 ∧ (N1 < N2 ∨ (N1 = N2 ∧ P1 < P2)))) :
    KernelStringToNumeric (dotted3 M1 N1 P1) < KernelStringToNumeric (dotted3 M2 N2 P2) := by
  rw [KernelStringToNumeric_dotted3 M1 N1 P1 (by omega) (by omega) (by omega),
    KernelStringToNumeric_dotted3 M2 N2 P2 (by omega) (by omega) (by omega)]
  omega

theorem KernelStringToNumeric_monotone_witness :
    KernelStringToNumeric (dotted3 4 19 255) < KernelStringToNumeric (dotted3 5 0 0) :=
  KernelStringToNumeric_monotone 4 19 255 5 0 0 (by decide) (by decide) (by decide)

/-! ## The shape of every encoding -/

theorem mem_of_mem_Split (sep : Char) (s : List Char) :
    ∀ piece ∈ Split sep s, ∀ c ∈ piece, c ∈ s := by
  induction s with
  | nil =>
    intro piece hp c hc
    simp only [Split, List.mem_singleton] at hp
    subst hp
    exact hc
  | cons x xs ih =>
    intro piece hp c hc
    by_cases hx : x = sep
    · simp only [Split, hx, if_true, List.mem_cons] at hp
      rcases hp with hp | hp
      · subst hp; cases hc
      · exact List.mem_cons_of_mem _ (ih piece hp c hc)
    · cases hs : Split sep xs with
      | nil => exact absurd hs (Split_ne_nil sep xs)
      | cons q rest =>
        simp only [Split, hx, if_false, hs, List.mem_cons] at hp
        rw [hs] at ih
        rcases hp with hp | hp
        · subst hp
          rcases List.mem_cons.mp hc with hc | hc
          · subst hc; exact List.mem_cons_self _ _
          · exact List.mem_cons_of_mem _ (ih q (List.mem_cons_self _ _) c hc)
        · exact List.mem_cons_of_mem _ (ih piece (List.mem_cons_of_mem _ hp) c hc)

theorem mem_of_mem_TrimRight (s : List Char) (cut c : Char) (h : c ∈ TrimRight s cut) :
    c ∈ s := by
  unfold TrimRight at h
  rw [List.mem_reverse] at h
  exact List.mem_reverse.mp ((List.dropWhile_sublist _).subset h)

theorem dash_not_mem_takeWhile (s : List Char) : '-' ∉ s.takeWhile (fun c => c != '-') := by
  intro h
  have := List.mem_takeWhile_imp h
  simp at this

theorem getD_mem_or_nil (l : List (List Char)) (i : Nat) :
    l.getD i [] = [] ∨ l.getD i [] ∈ l := by
  by_cases h : i < l.length
  · right
    rw [List.getD_eq_getElem _ _ h]
    exact List.getElem_mem h
  · left
    exact List.getD_eq_default _ _ (by omega)

theorem dash_not_mem_versionParts (ver : List Char) :
    '-' ∉ (versionParts ver).1 ∧ '-' ∉ (versionParts ver).2.1 ∧
      '-' ∉ (versionParts ver).2.2 := by
  have hnum : '-' ∉ TrimRight ((Split '-' ver).headD []) '+' := by
    intro h
    have h1 := mem_of_mem_TrimRight _ _ _ h
    rw [headD_Split] at h1
    exact dash_not_mem_takeWhile ver h1
  have hpiece : ∀ piece ∈ Split '.' (TrimRight ((Split '-' ver).headD []) '+'),
      '-' ∉ piece := fun piece hp hc => hnum (mem_of_mem_Split _ _ piece hp _ hc)
  have hget : ∀ i, '-' ∉ (Split '.' (TrimRight ((Split '-' ver).headD []) '+')).getD i [] := by
    intro i
    rcases getD_mem_or_nil (Split '.' (TrimRight ((Split '-' ver).headD []) '+')) i with h | h
    · rw [h]; simp
    · exact hpiece _ h
  have hhead : (Split '.' (TrimRight ((Split '-' ver).headD []) '+')).headD [] =
      (Split '.' (TrimRight ((Split '-' ver).headD []) '+')).getD 0 [] := by
    cases Split '.' (TrimRight ((Split '-' ver).headD []) '+') <;> rfl
  refine ⟨?_, ?_, ?_⟩
  · show '-' ∉ (Split '.' (TrimRight ((Split '-' ver).headD []) '+')).headD []
    rw [hhead]; exact hget 0
  · show '-' ∉ (if _ then _ else _)
    split
    · exact hget 1
    · simp
  · show '-' ∉ (if _ then _ else _)
    split
    · exact hget 2
    · simp

theorem signedOfMagnitude_nonneg (un : Nat) (v : Int)
    (h : signedOfMagnitude false un 32 = .ok v) : 0 ≤ v ∧ v < 2 ^ 31 := by
  simp only [signedOfMagnitude, Bool.not_false, Bool.true_and, Bool.false_and,
    Bool.false_eq_true, if_false, decide_eq_true_eq] at h
  by_cases hc : un ≥ 2 ^ (32 - 1)
  · rw [if_pos hc] at h; cases h
  · rw [if_neg hc] at h
    cases h
    have : un < 2 ^ 31 := by simpa using hc
    omega

theorem ParseInt_range_of_no_dash (s : List Char) (v : Int) (hd : '-' ∉ s)
    (h : ParseInt s 32 = .ok v) : 0 ≤ v ∧ v < 2 ^ 31 := by
  cases s with
  | nil => simp [ParseInt] at h
  | cons c cs =>
    have hc : ¬ c = '-' := fun e => hd (by simp [e])
    have hneg : (c == '-') = false := by simpa using hc
    simp only [ParseInt, hneg] at h
    split at h
    · cases h
    · exact signedOfMagnitude_nonneg _ _ h
    · exact signedOfMagnitude_nonneg _ _ h

theorem componentOrZero_range (s : List Char) (hd : '-' ∉ s) :
    0 ≤ componentOrZero s ∧ componentOrZero s < 2 ^ 31 := by
  unfold componentOrZero
  split
  · omega
  · next v hv => exact ParseInt_range_of_no_dash s v hd hv

theorem KernelStringToNumeric_of_error (ver : List Char) (e : NumError)
    (h : ParseInt (versionParts ver).1 32 = .error e) : KernelStringToNumeric ver = 0 := by
  simp [KernelStringToNumeric, h]

theorem KernelStringToNumeric_of_ok (ver : List Char) (major : Int)
    (h : ParseInt (versionParts ver).1 32 = .ok major) :
    KernelStringToNumeric ver =
      major * 65536 + componentOrZero (versionParts ver).2.1 * 256 +
        componentOrZero (versionParts ver).2.2 := by
  obtain ⟨h1, h2, h3⟩ := dash_not_mem_versionParts ver
  have hM := ParseInt_range_of_no_dash _ _ h1 h
  have hN := componentOrZero_range _ h2
  have hP := componentOrZero_range _ h3
  have := pack_no_wrap major _ _ hM hN hP
  rw [← this]
  simp only [KernelStringToNumeric, h, componentOrZero]

theorem versionParts_major (ver : List Char) : (versionParts ver).1 = majorComponent ver := by
  show (Split '.' (TrimRight ((Split '-' ver).headD []) '+')).headD [] = _
  rw [headD_Split, headD_Split]
  rfl

/-- C3: whenever the major component (the text before the first `.` of the
first `-`-separated segment without its trailing `+`) is empty or does not
parse as a base-10 32-bit integer, the encoding is 0, whatever follows; the
encodings of "" and of "abc.1.2" are 0. -/
theorem KernelStringToNumeric_sentinel :
    (∀ ver : List Char, majorUnparsable ver → KernelStringToNumeric ver = 0) ∧
    KernelStringToNumeric "".toList = 0 ∧
    KernelStringToNumeric "abc.1.2".toList = 0 := by
  refine ⟨?_, by decide, by decide⟩
  intro ver h
  rcases h with h | ⟨e, h⟩
  · apply KernelStringToNumeric_of_error ver .ErrSyntax
    rw [versionParts_major, h]
    rfl
  · apply KernelStringToNumeric_of_error ver e
    rw [versionParts_major, h]

theorem KernelStringToNumeric_sentinel_witness :
    majorUnparsable "x9.4.7-rc1".toList ∧ KernelStringToNumeric "x9.4.7-rc1".toList = 0 :=
  ⟨Or.inr ⟨.ErrSyntax, rfl⟩,
    KernelStringToNumeric_sentinel.1 _ (Or.inr ⟨.ErrSyntax, rfl⟩)⟩

/-- C4, as stated, fails: the text "0.0.0" encodes to 0 although its major
component "0" is present and parses (as 0). -/
theorem KernelStringToNumeric_zero_not_only_failure :
    KernelStringToNumeric "0.0.0".toList = 0 ∧
    majorComponent "0.0.0".toList = "0".toList ∧
    ParseInt (majorComponent "0.0.0".toList) 32 = .ok 0 ∧
    ¬ majorUnparsable "0.0.0".toList := by
  have hok : ParseInt (majorComponent "0.0.0".toList) 32 = .ok 0 := rfl
  refine ⟨by decide, by decide, hok, ?_⟩
  rintro (h | ⟨e, h⟩)
  · exact absurd h (by decide)
  · rw [hok] at h
    cases h

/-- C4 amended: if the encoding of `s` is 0 then either the major component is
absent or fails to parse, or it parses as 0 and the minor and patch
components each contribute 0 (absent, unparsable, or parsing as 0). -/
theorem KernelStringToNumeric_eq_zero (s : List Char) (h : KernelStringToNumeric s = 0) :
    majorUnparsable s ∨
    (ParseInt (majorComponent s) 32 = .ok 0 ∧
      componentOrZero (versionParts s).2.1 = 0 ∧ componentOrZero (versionParts s).2.2 = 0) := by
  cases hp : ParseInt (versionParts s).1 32 with
  | error e =>
    left; right
    exact ⟨e, by rw [← versionParts_major, hp]⟩
  | ok major =>
    right
    obtain ⟨h1, h2, h3⟩ := dash_not_mem_versionParts s
    have hM := ParseInt_range_of_no_dash _ _ h1 hp
    have hN := componentOrZero_range _ h2
    have hP := componentOrZero_range _ h3
    rw [KernelStringToNumeric_of_ok s major hp] at h
    have hm0 : major = 0 := by omega
    refine ⟨by rw [← versionParts_major, hp, hm0], by omega, by omega⟩

theorem KernelStringToNumeric_eq_zero_witness :
    KernelStringToNumeric "0.x".toList = 0 ∧
    (majorUnparsable "0.x".toList ∨
      (ParseInt (majorComponent "0.x".toList) 32 = .ok 0 ∧
        componentOrZero (versionParts "0.x".toList).2.1 = 0 ∧
        componentOrZero (versionParts "0.x".toList).2.2 = 0)) :=
  ⟨by decide, KernelStringToNumeric_eq_zero "0.x".toList (by decide)⟩

/-! ## Invariance under vendor suffixes, trailing `+` and missing components -/

theorem KernelStringToNumeric_congr (a b : List Char) (h : versionParts a = versionParts b) :
    KernelStringToNumeric a = KernelStringToNumeric b := by
  simp only [KernelStringToNumeric, h]

theorem versionParts_congr (a b : List Char)
    (h : TrimRight ((Split '-' a).headD []) '+' = TrimRight ((Split '-' b).headD []) '+') :
    versionParts a = versionParts b := by
  simp only [versionParts, h]

theorem takeWhile_append_of_stop (p : Char → Bool) (s r : List Char)
    (h : ∃ x ∈ s, p x = false) : (s ++ r).takeWhile p = s.takeWhile p := by
  induction s with
  | nil => obtain ⟨x, hx, _⟩ := h; cases hx
  | cons c cs ih =>
    by_cases hc : p c = true
    · obtain ⟨x, hx, hpx⟩ := h
      rcases List.mem_cons.mp hx with e | hx
      · subst e; rw [hc] at hpx; cases hpx
      · simp [List.takeWhile, hc, ih ⟨x, hx, hpx⟩]
    · simp [List.takeWhile, hc]

/-- C5: for every text `s` without `-` and every text `t`, the encoding of
`s ++ "-" ++ t` is the encoding of `s`; e.g. "4.14.128-foo" and "4.14.128"
encode to the same value. -/
theorem KernelStringToNumeric_vendor_suffix :
    (∀ s t : List Char, '-' ∉ s →
      KernelStringToNumeric (s ++ "-".toList ++ t) = KernelStringToNumeric s) ∧
    KernelStringToNumeric "4.14.128-foo".toList = KernelStringToNumeric "4.14.128".toList := by
  refine ⟨?_, by decide⟩
  intro s t hs
  apply KernelStringToNumeric_congr
  apply versionParts_congr
  rw [headD_Split, headD_Split]
  have : s ++ "-".toList ++ t = s ++ '-' :: t := by simp
  rw [this, takeWhile_append_sep _ _ _ hs, takeWhile_of_not_mem _ _ hs]

theorem KernelStringToNumeric_vendor_suffix_witness :
    '-' ∉ "5.15.0".toList ∧
    KernelStringToNumeric ("5.15.0".toList ++ "-".toList ++ "91-generic".toList) =
      KernelStringToNumeric "5.15.0".toList :=
  ⟨by decide, KernelStringToNumeric_vendor_suffix.1 _ _ (by decide)⟩

/-- C6: appending any number of `+` characters to any text does not change
its encoding; e.g. "5.10.0+" and "5.10.0" encode to the same value. -/
theorem KernelStringToNumeric_trailing_plus :
    (∀ (s : List Char) (n : Nat),
      KernelStringToNumeric (s ++ List.replicate n '+') = KernelStringToNumeric s) ∧
    KernelStringToNumeric "5.10.0+".toList = KernelStringToNumeric "5.10.0".toList := by
  refine ⟨?_, by decide⟩
  intro s n
  apply KernelStringToNumeric_congr
  apply versionParts_congr
  rw [headD_Split, headD_Split]
  by_cases hs : '-' ∈ s
  · rw [takeWhile_append_of_stop _ s _ ⟨'-', hs, by decide⟩]
  · have hr : '-' ∉ s ++ List.replicate n '+' := by
      intro h
      rcases List.mem_append.mp h with h | h
      · exact hs h
      · exact absurd (List.eq_of_mem_replicate h) (by decide)
    rw [takeWhile_of_not_mem _ _ hr, takeWhile_of_not_mem _ _ hs,
      TrimRight_append_replicate]

theorem versionParts_decimal (M : Nat) :
    versionParts (decimal M) = (decDigits M, [], []) := by
  have htrim := TrimRight_decDigits_suffix [] M
  rw [List.nil_append] at htrim
  simp [versionParts, decimal_eq_decDigits, Split_of_not_mem _ _ (dash_not_mem_decDigits M),
    htrim, Split_of_not_mem _ _ (dot_not_mem_decDigits M)]

theorem versionParts_dotted2 (M N : Nat) :
    versionParts (dotted2 M N) = (decDigits M, decDigits N, []) := by
  have hdash : '-' ∉ dotted2 M N := by
    simp only [dotted2, decimal_eq_decDigits, List.mem_append, List.mem_cons]
    have h1 := dash_not_mem_decDigits M
    have h2 := dash_not_mem_decDigits N
    have : ¬ ('-' = '.') := by decide
    tauto
  have htrim : TrimRight (dotted2 M N) '+' = dotted2 M N := by
    have := TrimRight_decDigits_suffix (decDigits M ++ ['.']) N
    simpa [dotted2, decimal_eq_decDigits] using this
  have hsplit : Split '.' (dotted2 M N) = [decDigits M, decDigits N] := by
    simp only [dotted2, decimal_eq_decDigits]
    rw [Split_append_sep _ _ _ (dot_not_mem_decDigits M),
      Split_of_not_mem _ _ (dot_not_mem_decDigits N)]
  simp [versionParts, Split_of_not_mem _ _ hdash, htrim, hsplit]

theorem KernelStringToNumeric_unfold (ver : List Char) :
    KernelStringToNumeric ver =
      match ParseInt (versionParts ver).1 32 with
      | .error _ => 0
      | .ok major =>
        wrapInt64 (wrapInt64 (wrapInt64 (major * 2 ^ 16) +
          wrapInt64 (componentOrZero (versionParts ver).2.1 * 2 ^ 8)) +
            componentOrZero (versionParts ver).2.2) := rfl

theorem componentOrZero_nil : componentOrZero [] = 0 := rfl

theorem componentOrZero_decDigits_zero : componentOrZero (decDigits 0) = 0 := by
  simp [componentOrZero, ParseInt_decDigits 0 (by decide)]

/-- C7: a version written without its patch, or without its minor and patch,
encodes as if the missing components were 0: "M" as "M.0.0" and "M.N" as
"M.N.0" for all decimal M and N.  More generally, whenever the major
component parses, the encoding is `major * 2^16 + minor * 2^8 + patch` where
a minor or patch component that is absent or does not parse counts as 0. -/
theorem KernelStringToNumeric_missing_components :
    (∀ M : Nat, KernelStringToNumeric (decimal M) =
      KernelStringToNumeric (decimal M ++ ".0.0".toList)) ∧
    (∀ M N : Nat, KernelStringToNumeric (dotted2 M N) =
      KernelStringToNumeric (dotted2 M N ++ ".0".toList)) ∧
    (∀ (ver : List Char) (major : Int), ParseInt (majorComponent ver) 32 = .ok major →
      KernelStringToNumeric ver =
        major * 65536 + componentOrZero (versionParts ver).2.1 * 256 +
          componentOrZero (versionParts ver).2.2) ∧
    (∀ s : List Char, (s = [] ∨ ∃ e, ParseInt s 32 = .error e) → componentOrZero s = 0) ∧
    (∀ M : Nat, (versionParts (decimal M)).2.1 = [] ∧ (versionParts (decimal M)).2.2 = []) ∧
    (∀ M N : Nat, (versionParts (dotted2 M N)).2.2 = []) := by
  refine ⟨?_, ?_, ?_, ?_, ?_, ?_⟩
  · intro M
    have e : decimal M ++ ".0.0".toList = dotted3 M 0 0 := rfl
    rw [e, KernelStringToNumeric_unfold, KernelStringToNumeric_unfold (dotted3 M 0 0),
      versionParts_decimal, versionParts_dotted3]
    simp only [componentOrZero_nil, componentOrZero_decDigits_zero]
  · intro M N
    have e : dotted2 M N ++ ".0".toList = dotted3 M N 0 := by
      simp only [dotted2, dotted3, List.append_assoc, List.cons_append]
      rfl
    rw [e, KernelStringToNumeric_unfold, KernelStringToNumeric_unfold (dotted3 M N 0),
      versionParts_dotted2, versionParts_dotted3]
    simp only [componentOrZero_nil, componentOrZero_decDigits_zero]
  · intro ver major h
    rw [← versionParts_major] at h
    exact KernelStringToNumeric_of_ok ver major h
  · rintro s (h | ⟨e, h⟩)
    · subst h; rfl
    · simp [componentOrZero, h]
  · intro M
    rw [versionParts_decimal]
    exact ⟨rfl, rfl⟩
  · intro M N
    rw [versionParts_dotted2]

theorem KernelStringToNumeric_missing_components_witness :
    decimal 5 = "5".toList ∧ dotted2 5 4 = "5.4".toList ∧
    KernelStringToNumeric "5".toList = KernelStringToNumeric "5.0.0".toList ∧
    KernelStringToNumeric "5.4".toList = KernelStringToNumeric "5.4.0".toList ∧
    ParseInt (majorComponent "5.x.7".toList) 32 = .ok 5 ∧
    KernelStringToNumeric "5.x.7".toList = 5 * 65536 + 0 * 256 + 7 :=
  ⟨by decide, by decide, KernelStringToNumeric_missing_components.1 5,
    KernelStringToNumeric_missing_components.2.1 5 4, rfl,
    KernelStringToNumeric_missing_components.2.2.1 "5.x.7".toList 5 rfl⟩

/-! ## The quirk correction -/

theorem nat_and_255 (n : Nat) : n &&& 255 = n % 256 :=
  Nat.and_pow_two_sub_one_eq_mod n 8

theorem nat_ldiff_255_left (m : Nat) : Nat.ldiff 255 m = 255 - m % 256 := by
  have hlt : m % 2 ^ 8 < 2 ^ 8 := Nat.mod_lt _ (by decide)
  have e : 255 - m % 256 = 2 ^ 8 - (m % 2 ^ 8 + 1) := by omega
  rw [e]
  apply Nat.eq_of_testBit_eq
  intro i
  rw [Nat.testBit_ldiff, Nat.testBit_two_pow_sub_succ hlt, Nat.testBit_mod_two_pow]
  have h255 : (255 : Nat).testBit i = decide (i < 8) := Nat.testBit_two_pow_sub_one 8 i
  rw [h255]
  cases decide (i < 8) <;> cases m.testBit i <;> rfl

theorem nat_or_255 (n : Nat) : n ||| 255 = n / 256 * 256 + 255 := by
  have e : n / 256 * 256 + 255 = 2 ^ 8 * (n >>> 8) + 255 := by
    rw [Nat.shiftRight_eq_div_pow]; omega
  rw [e]
  apply Nat.eq_of_testBit_eq
  intro i
  rw [Nat.testBit_or, Nat.testBit_mul_pow_two_add _ (by decide : 255 < 2 ^ 8)]
  have h255 : (255 : Nat).testBit i = decide (i < 8) := Nat.testBit_two_pow_sub_one 8 i
  rw [h255]
  by_cases hi : i < 8
  · simp [hi]
  · have : 8 + (i - 8) = i := by omega
    simp [hi, Nat.testBit_shiftRight, this]

theorem nat_ldiff_255_right (m : Nat) : Nat.ldiff m 255 = m / 256 * 256 := by
  have e : m / 256 * 256 = 2 ^ 8 * (m >>> 8) := by
    rw [Nat.shiftRight_eq_div_pow]; omega
  rw [e]
  apply Nat.eq_of_testBit_eq
  intro i
  rw [Nat.testBit_ldiff, Nat.testBit_mul_pow_two]
  have h255 : (255 : Nat).testBit i = decide (i < 8) := Nat.testBit_two_pow_sub_one 8 i
  rw [h255]
  by_cases hi : i < 8
  · simp [hi]
  · have : 8 + (i - 8) = i := by omega
    have hge : i ≥ 8 := by omega
    simp [hi, hge, Nat.testBit_shiftRight, this]

theorem land_255 (v : Int) : Int.land v 255 = v % 256 := by
  cases v with
  | ofNat n =>
    show ((n &&& 255 : Nat) : Int) = (n : Int) % 256
    rw [nat_and_255]
    omega
  | negSucc m =>
    show ((Nat.ldiff 255 m : Nat) : Int) = Int.negSucc m % 256
    rw [nat_ldiff_255_left, Int.negSucc_eq]
    omega

theorem lor_255 (v : Int) : Int.lor v 255 = v - v % 256 + 255 := by
  cases v with
  | ofNat n =>
    show ((n ||| 255 : Nat) : Int) = (n : Int) - (n : Int) % 256 + 255
    rw [nat_or_255]
    omega
  | negSucc m =>
    show Int.negSucc (Nat.ldiff m 255) = Int.negSucc m - Int.negSucc m % 256 + 255
    rw [nat_ldiff_255_right, Int.negSucc_eq, Int.negSucc_eq]
    omega

theorem shiftRight_8 (v : Int) : Int.shiftRight v 8 = v / 256 := by
  cases v with
  | ofNat n =>
    show ((n >>> 8 : Nat) : Int) = (n : Int) / 256
    rw [Nat.shiftRight_eq_div_pow]
    omega
  | negSucc m =>
    show Int.negSucc (m >>> 8) = Int.negSucc m / 256
    rw [Nat.shiftRight_eq_div_pow, Int.negSucc_eq, Int.negSucc_eq]
    omega

/-- C8: for every integer `v`, if `v & 0xffff00` is the encoding of branch 4.19
(267008) and the patch field `v & 0xff` (which is `v mod 256`) lies in
[221, 231], `FixKernelVersion v` is `v` with its patch field replaced by 255
and every other bit kept; in every other case it is `v`.  The encoding of
4.19.225 becomes that of 4.19.255 and the encoding of 4.19.220 is kept. -/
theorem FixKernelVersion_spec :
    (∀ v : Int, Int.land v 0xff = v % 256) ∧
    (∀ v : Int, Int.land v 0xffff00 = 267008 → 221 ≤ Int.land v 0xff →
      Int.land v 0xff ≤ 231 →
        FixKernelVersion v = v - Int.land v 0xff + 255 ∧
        Int.land (FixKernelVersion v) 0xff = 255 ∧
        Int.shiftRight (FixKernelVersion v) 8 = Int.shiftRight v 8) ∧
    (∀ v : Int, ¬ (Int.land v 0xffff00 = 267008 ∧ 221 ≤ Int.land v 0xff ∧
      Int.land v 0xff ≤ 231) → FixKernelVersion v = v) ∧
    KernelStringToNumeric "4.19".toList = 267008 ∧
    FixKernelVersion (KernelStringToNumeric "4.19.225".toList) =
      KernelStringToNumeric "4.19.255".toList ∧
    FixKernelVersion (KernelStringToNumeric "4.19.220".toList) =
      KernelStringToNumeric "4.19.220".toList := by
  refine ⟨land_255, ?_, ?_, by decide, by decide, by decide⟩
  · intro v hb hlo hhi
    have hfix : FixKernelVersion v = Int.lor v 0xff := by
      simp only [FixKernelVersion, hb, if_true]
      rw [if_pos ⟨hlo, hhi⟩]
    have hval : FixKernelVersion v = v - v % 256 + 255 := by rw [hfix]; exact lor_255 v
    refine ⟨?_, ?_, ?_⟩
    · rw [hval]
      show v - v % 256 + 255 = v - Int.land v 255 + 255
      rw [land_255]
    · show Int.land (FixKernelVersion v) 255 = 255
      rw [land_255, hval]
      omega
    · rw [shiftRight_8, shiftRight_8, hval]
      omega
  · intro v hn
    unfold FixKernelVersion
    split
    · next hb =>
      show (if _ then _ else _) = v
      split
      · next hr => exact absurd ⟨hb, hr.1, hr.2⟩ hn
      · rfl
    · rfl

theorem FixKernelVersion_spec_witness :
    Int.land 267229 0xffff00 = 267008 ∧ 221 ≤ Int.land 267229 0xff ∧
    Int.land 267229 0xff ≤ 231 ∧ FixKernelVersion 267229 = 267263 ∧
    FixKernelVersion 267228 = 267228 := by
  have h := FixKernelVersion_spec.2.1 267229 (by decide) (by decide) (by decide)
  have h2 := FixKernelVersion_spec.2.2.1 267228 (by decide)
  exact ⟨by decide, by decide, by decide, h.1, h2⟩

/-! ## Version discovery -/

theorem KernelStringToNumeric_range (ver : List Char) :
    0 ≤ KernelStringToNumeric ver ∧ KernelStringToNumeric ver < 2 ^ 48 := by
  cases hp : ParseInt (versionParts ver).1 32 with
  | error e =>
    rw [KernelStringToNumeric_of_error ver e hp]
    omega
  | ok major =>
    obtain ⟨h1, h2, h3⟩ := dash_not_mem_versionParts ver
    have hM := ParseInt_range_of_no_dash _ _ h1 hp
    have hN := componentOrZero_range _ h2
    have hP := componentOrZero_range _ h3
    rw [KernelStringToNumeric_of_ok ver major hp]
    omega

theorem toInt_KernelStringToNumeric (ver : List Char) :
    toInt (KernelStringToNumeric ver) = KernelStringToNumeric ver := by
  have h := KernelStringToNumeric_range ver
  exact wrapInt64_of_range _ (by omega) (by omega)

/-- C9: with a non-empty override `o`, `GetKernelVersion` returns the encoding
of `o`, `o` itself and a nil error, for every state of the signature file and
every outcome of `uname`: two hosts that differ in both give the same
result. -/
theorem GetKernelVersion_override (o procfs : List Char) (ho : o ≠ []) :
    (∀ host : Host, GetKernelVersion host o procfs = (KernelStringToNumeric o, o, none)) ∧
    (∀ host1 host2 : Host,
      GetKernelVersion host1 o procfs = GetKernelVersion host2 o procfs) := by
  have h : ∀ host : Host, GetKernelVersion host o procfs = (KernelStringToNumeric o, o, none) := by
    intro host
    simp only [GetKernelVersion, ne_eq, ho, not_false_eq_true, if_true,
      toInt_KernelStringToNumeric]
  exact ⟨h, fun host1 host2 => by rw [h host1, h host2]⟩

theorem GetKernelVersion_override_witness :
    "5.4.0-rc1".toList ≠ [] ∧
    GetKernelVersion ⟨fun _ => some "Ubuntu 6.1.0".toList, some "4.19.0".toList⟩
      "5.4.0-rc1".toList "/proc".toList = (328704, "5.4.0-rc1".toList, none) :=
  ⟨by decide, (GetKernelVersion_override "5.4.0-rc1".toList "/proc".toList (by decide)).1 _⟩

theorem fieldsLoop_eq_nil (cur s : List Char) (h : fieldsLoop cur s = []) :
    cur = [] ∧ ∀ c ∈ s, isSpace c = true := by
  induction s generalizing cur with
  | nil =>
    by_cases hc : cur = []
    · exact ⟨hc, by simp⟩
    · simp [fieldsLoop, hc] at h
  | cons x xs ih =>
    by_cases hx : isSpace x = true
    · by_cases hc : cur = []
      · simp only [fieldsLoop, hx, if_true, hc] at h
        refine ⟨hc, ?_⟩
        intro c hcm
        rcases List.mem_cons.mp hcm with e | hm
        · rw [e]; exact hx
        · exact (ih [] h).2 c hm
      · simp [fieldsLoop, hx, hc] at h
    · simp only [fieldsLoop, hx] at h
      have := (ih (x :: cur) h).1
      cases this

theorem IsLastToken_prepend (a s t : List Char) (x : Char) (hx : isSpace x = true)
    (h : IsLastToken s t) : IsLastToken (a ++ x :: s) t := by
  obtain ⟨pre, post, hs, hne, ht, hpost, hpre⟩ := h
  refine ⟨a ++ x :: pre, post, by simp [hs], hne, ht, hpost, Or.inr ?_⟩
  rcases hpre with e | ⟨p, w, e, hw⟩
  · exact ⟨a, x, by simp [e], hx⟩
  · exact ⟨a ++ x :: p, w, by simp [e], hw⟩

theorem fieldsLoop_getLast (cur s t : List Char) (hcur : ∀ c ∈ cur, isSpace c = false)
    (h : (fieldsLoop cur s).getLast? = some t) : IsLastToken (cur.reverse ++ s) t := by
  induction s generalizing cur with
  | nil =>
    by_cases hc : cur = []
    · simp [fieldsLoop, hc] at h
    · simp only [fieldsLoop, hc, if_false, List.getLast?_singleton, Option.some.injEq] at h
      subst h
      exact ⟨[], [], by simp, by simpa using hc, by simpa using hcur, by simp, Or.inl rfl⟩
  | cons x xs ih =>
    by_cases hx : isSpace x = true
    · by_cases hc : cur = []
      · simp only [fieldsLoop, hx, if_true, hc] at h
        have := ih [] (by simp) h
        subst hc
        simpa using IsLastToken_prepend [] _ t x hx (by simpa using this)
      · simp only [fieldsLoop, hx, if_true, hc, if_false] at h
        by_cases hrest : fieldsLoop [] xs = []
        · rw [hrest] at h
          simp only [List.getLast?_singleton, Option.some.injEq] at h
          subst h
          have hsp := (fieldsLoop_eq_nil [] xs hrest).2
          refine ⟨[], x :: xs, by simp, by simpa using hc, by simpa using hcur, ?_,
            Or.inl rfl⟩
          intro c hcm
          rcases List.mem_cons.mp hcm with e | hm
          · rw [e]; exact hx
          · exact hsp c hm
        · obtain ⟨y, ys, hy⟩ := List.exists_cons_of_ne_nil hrest
          rw [hy, List.getLast?_cons_cons, ← hy] at h
          have := ih [] (by simp) h
          exact IsLastToken_prepend _ _ t x hx (by simpa using this)
    · simp only [fieldsLoop, hx] at h
      have hcur2 : ∀ c ∈ x :: cur, isSpace c = false := by
        intro c hcm
        rcases List.mem_cons.mp hcm with e | hm
        · rw [e]; simpa using hx
        · exact hcur c hm
      have := ih (x :: cur) hcur2 h
      simpa using this

theorem dropWhile_append_all (p : Char → Bool) (a b : List Char)
    (h : ∀ c ∈ a, p c = true) : (a ++ b).dropWhile p = b.dropWhile p := by
  induction a with
  | nil => rfl
  | cons x xs ih =>
    have hx : p x = true := h x (List.mem_cons_self _ _)
    simp only [List.cons_append, List.dropWhile, hx]
    exact ih (fun c hc => h c (List.mem_cons_of_mem _ hc))

theorem takeWhile_append_all (p : Char → Bool) (a b : List Char)
    (h : ∀ c ∈ a, p c = true) : (a ++ b).takeWhile p = a ++ b.takeWhile p := by
  induction a with
  | nil => rfl
  | cons x xs ih =>
    have hx : p x = true := h x (List.mem_cons_self _ _)
    have ih2 := ih (fun c hc => h c (List.mem_cons_of_mem _ hc))
    simp only [List.cons_append, List.takeWhile, hx]
    exact congrArg (List.cons x) ih2

theorem IsLastToken_eq_lastToken (s t : List Char) (h : IsLastToken s t) :
    t = lastToken s := by
  obtain ⟨pre, post, hs, hne, ht, hpost, hpre⟩ := h
  have hrev : s.reverse = post.reverse ++ (t.reverse ++ pre.reverse) := by
    rw [hs]; simp
  have hdrop1 : s.reverse.dropWhile isSpace = (t.reverse ++ pre.reverse).dropWhile isSpace := by
    rw [hrev]
    exact dropWhile_append_all _ _ _ (fun c hc => hpost c (List.mem_reverse.mp hc))
  have hdrop2 : (t.reverse ++ pre.reverse).dropWhile isSpace = t.reverse ++ pre.reverse := by
    cases htr : t.reverse with
    | nil => exact absurd (List.reverse_eq_nil_iff.mp htr) hne
    | cons y ys =>
      have hy : isSpace y = false := ht y (List.mem_reverse.mp (by rw [htr]; simp))
      simp [List.dropWhile, hy]
  have htake : (t.reverse ++ pre.reverse).takeWhile (fun c => !isSpace c) = t.reverse := by
    rw [takeWhile_append_all _ _ _ (fun c hc => by simp [ht c (List.mem_reverse.mp hc)])]
    rcases hpre with e | ⟨p, w, e, hw⟩
    · simp [e]
    · simp [e, List.takeWhile, hw]
  unfold lastToken
  rw [hdrop1, hdrop2, htake, List.reverse_reverse]

theorem Fields_ne_nil (s : List Char) (h : ∃ c ∈ s, isSpace c = false) : Fields s ≠ [] := by
  intro hnil
  obtain ⟨c, hc, hsp⟩ := h
  have := (fieldsLoop_eq_nil [] s hnil).2 c hc
  rw [hsp] at this
  cases this

theorem Fields_last (s : List Char) (h : ∃ c ∈ s, isSpace c = false) :
    (Fields s).getD ((Fields s).length - 1) [] = lastToken s ∧
      IsLastToken s (lastToken s) := by
  have hne := Fields_ne_nil s h
  have hlast : (Fields s).getLast? = some ((Fields s).getLast hne) :=
    List.getLast?_eq_getLast _ hne
  have htok : IsLastToken s ((Fields s).getLast hne) := by
    have := fieldsLoop_getLast [] s _ (by simp) hlast
    simpa using this
  have heq := IsLastToken_eq_lastToken _ _ htok
  have hlen : (Fields s).length - 1 < (Fields s).length := by
    have : 0 < (Fields s).length := List.length_pos.mpr hne
    omega
  refine ⟨?_, by rw [← heq]; exact htok⟩
  rw [List.getD_eq_getElem _ _ hlen, ← heq, List.getLast_eq_getElem]

/-- C10, as stated, fails: a signature file that is readable and non-empty but
holds only white space has no token, and the result then follows `uname`
(two hosts with the same file and different `uname` outcomes differ). -/
theorem GetKernelVersion_whitespace_only_file :
    "\n".toList ≠ [] ∧ Fields "\n".toList = [] ∧
    GetKernelVersion ⟨fun _ => some "\n".toList, some "5.4.0-42-generic".toList⟩ []
      "/proc".toList = (328704, "5.4.0".toList, none) ∧
    GetKernelVersion ⟨fun _ => some "\n".toList, none⟩ [] "/proc".toList =
      (0, "unknown".toList, none) := by
  refine ⟨by decide, by decide, by decide, by decide⟩

/-- C10 amended: when the override is empty and the signature file
`procfs + "/version_signature"` is readable and holds at least one non-space
character, `GetKernelVersion` returns the encoding of the last
whitespace-separated token of the file, that token, and a nil error, whatever
`uname` would return. -/
theorem GetKernelVersion_signature (readFile : List Char → Option (List Char))
    (uname : Option (List Char)) (procfs contents : List Char)
    (hread : readFile (procfs ++ "/version_signature".toList) = some contents)
    (htok : ∃ c ∈ contents, isSpace c = false) :
    GetKernelVersion ⟨readFile, uname⟩ [] procfs =
      (KernelStringToNumeric (lastToken contents), lastToken contents, none) ∧
    IsLastToken contents (lastToken contents) := by
  obtain ⟨hget, hlast⟩ := Fields_last contents htok
  have hlen : (Fields contents).length > 0 := List.length_pos.mpr (Fields_ne_nil contents htok)
  refine ⟨?_, hlast⟩
  simp only [GetKernelVersion, ne_eq, not_true_eq_false, if_false, hread, hlen, if_true,
    hget, toInt_KernelStringToNumeric]

theorem GetKernelVersion_signature_witness :
    GetKernelVersion
      ⟨fun path => if path = "/proc/version_signature".toList then
        some "Ubuntu 5.4.0-42.46-generic 5.4.44\n".toList else none, some "4.19.0".toList⟩
      [] "/proc".toList = (328748, "5.4.44".toList, none) :=
  (GetKernelVersion_signature _ (some "4.19.0".toList) "/proc".toList
    "Ubuntu 5.4.0-42.46-generic 5.4.44\n".toList (by decide) ⟨'U', by decide, by decide⟩).1

/-! ## Discovery without an override -/

theorem fieldsLoop_of_all_space (s : List Char) (h : ∀ c ∈ s, isSpace c = true) :
    fieldsLoop [] s = [] := by
  induction s with
  | nil => rfl
  | cons x xs ih =>
    have hx : isSpace x = true := h x (List.mem_cons_self _ _)
    simp only [fieldsLoop, hx, if_true]
    exact ih (fun c hc => h c (List.mem_cons_of_mem _ hc))

theorem GetKernelVersion_tokenless (host : Host) (procfs : List Char)
    (h : signatureTokenless host procfs) :
    GetKernelVersion host [] procfs =
      match host.uname with
      | none => (0, "unknown".toList, none)
      | some raw =>
        (KernelStringToNumeric (ByteSliceToString raw),
          (ByteSliceToString raw).takeWhile (fun c => c != '-'), none) := by
  unfold signatureTokenless at h
  cases hr : host.readFile (procfs ++ "/version_signature".toList) with
  | none =>
    simp only [GetKernelVersion, ne_eq, not_true_eq_false, if_false, hr, List.length_nil,
      gt_iff_lt, Nat.lt_irrefl, toInt_KernelStringToNumeric, headD_Split]
  | some contents =>
    rw [hr] at h
    have hf : Fields contents = [] := fieldsLoop_of_all_space contents h
    simp only [GetKernelVersion, ne_eq, not_true_eq_false, if_false, hr, hf, List.length_nil,
      gt_iff_lt, Nat.lt_irrefl, toInt_KernelStringToNumeric, headD_Split]

theorem GetKernelVersion_error (host : Host) (o procfs : List Char) :
    (GetKernelVersion host o procfs).2.2 = none := by
  unfold GetKernelVersion
  split
  · rfl
  · dsimp only
    split
    · rfl
    · split <;> rfl

/-- C11: `GetKernelVersion` never reports an error: the returned error is nil
for every override, signature-file state and `uname` outcome; and with an empty
override, a signature file that yields no token (unreadable, empty or
whitespace-only) and a failing `uname`, the result is exactly
(0, "unknown", nil). -/
theorem GetKernelVersion_never_errors :
    (∀ (host : Host) (o procfs : List Char), (GetKernelVersion host o procfs).2.2 = none) ∧
    (∀ (host : Host) (procfs : List Char), signatureTokenless host procfs →
      host.uname = none →
        GetKernelVersion host [] procfs = (0, "unknown".toList, none)) := by
  refine ⟨GetKernelVersion_error, ?_⟩
  intro host procfs htok hun
  rw [GetKernelVersion_tokenless host procfs htok, hun]

theorem GetKernelVersion_never_errors_witness :
    signatureTokenless ⟨fun _ => some " \n\t".toList, none⟩ "/proc".toList ∧
    GetKernelVersion ⟨fun _ => some " \n\t".toList, none⟩ [] "/proc".toList =
      (0, "unknown".toList, none) :=
  ⟨show ∀ c ∈ " \n\t".toList, isSpace c = true by decide,
    GetKernelVersion_never_errors.2 ⟨fun _ => some " \n\t".toList, none⟩
      "/proc".toList (show ∀ c ∈ " \n\t".toList, isSpace c = true by decide) rfl⟩

/-- C12: with an empty override and a signature file that yields no token,
when `uname` succeeds with release string `r` the result is
(encoding of the untruncated `r`, `d`, nil) where `d` is `r` cut at its first
`-` (and `d = r` when `r` has no `-`). -/
theorem GetKernelVersion_uname (host : Host) (procfs raw r : List Char)
    (htok : signatureTokenless host procfs) (hun : host.uname = some raw)
    (hr : ByteSliceToString raw = r) :
    (GetKernelVersion host [] procfs).1 = KernelStringToNumeric r ∧
    (GetKernelVersion host [] procfs).2.2 = none ∧
    (∀ a b : List Char, r = a ++ '-' :: b → '-' ∉ a →
      (GetKernelVersion host [] procfs).2.1 = a) ∧
    ('-' ∉ r → (GetKernelVersion host [] procfs).2.1 = r) := by
  rw [GetKernelVersion_tokenless host procfs htok, hun]
  subst hr
  refine ⟨rfl, rfl, ?_, ?_⟩
  · intro a b hab ha
    show (ByteSliceToString raw).takeWhile (fun c => c != '-') = a
    rw [hab, takeWhile_append_sep _ _ _ ha]
  · intro hno
    exact takeWhile_of_not_mem _ _ hno

theorem GetKernelVersion_uname_witness :
    GetKernelVersion ⟨fun _ => none, some "5.4.0-42-generic\x00\x00".toList⟩ []
      "/proc".toList = (328704, "5.4.0".toList, none) := by
  have h := GetKernelVersion_uname ⟨fun _ => none, some "5.4.0-42-generic\x00\x00".toList⟩
    "/proc".toList "5.4.0-42-generic\x00\x00".toList "5.4.0-42-generic".toList
    (show True from trivial) rfl (by decide)
  have h3 := h.2.2.1 "5.4.0".toList "42-generic".toList (by decide) (by decide)
  exact Prod.ext (h.1.trans (by decide)) (Prod.ext h3 h.2.1)

/-! ## The three sources of `GetKernelVersion` -/

theorem GetKernelVersion_cases (host : Host) (o procfs : List Char) :
    (o ≠ [] ∧ GetKernelVersion host o procfs = (KernelStringToNumeric o, o, none)) ∨
    (o = [] ∧ ∃ contents, host.readFile (procfs ++ "/version_signature".toList) = some contents ∧
      (∃ c ∈ contents, isSpace c = false) ∧
      GetKernelVersion host o procfs =
        (KernelStringToNumeric (lastToken contents), lastToken contents, none)) ∨
    (o = [] ∧ signatureTokenless host procfs ∧
      GetKernelVersion host o procfs =
        match host.uname with
        | none => (0, "unknown".toList, none)
        | some raw =>
          (KernelStringToNumeric (ByteSliceToString raw),
            (ByteSliceToString raw).takeWhile (fun c => c != '-'), none)) := by
  by_cases ho : o = []
  · subst ho
    right
    by_cases htok : signatureTokenless host procfs
    · right
      exact ⟨rfl, htok, GetKernelVersion_tokenless host procfs htok⟩
    · left
      unfold signatureTokenless at htok
      cases hr : host.readFile (procfs ++ "/version_signature".toList) with
      | none => rw [hr] at htok; exact absurd trivial htok
      | some contents =>
        rw [hr] at htok
        have hex : ∃ c ∈ contents, isSpace c = false := by
          by_contra hcon
          apply htok
          intro c hc
          cases hsp : isSpace c with
          | true => rfl
          | false => exact absurd ⟨c, hc, hsp⟩ hcon
        obtain ⟨hget, _⟩ := Fields_last contents hex
        have hlen : (Fields contents).length > 0 :=
          List.length_pos.mpr (Fields_ne_nil contents hex)
        refine ⟨rfl, contents, rfl, hex, ?_⟩
        simp only [GetKernelVersion, ne_eq, not_true_eq_false, if_false, hr, hlen, if_true,
          hget, toInt_KernelStringToNumeric]
  · left
    refine ⟨ho, ?_⟩
    simp only [GetKernelVersion, ne_eq, ho, not_false_eq_true, if_true,
      toInt_KernelStringToNumeric]

theorem GetKernelVersion_fst_range (host : Host) (o procfs : List Char) :
    0 ≤ (GetKernelVersion host o procfs).1 ∧ (GetKernelVersion host o procfs).1 < 2 ^ 48 := by
  rcases GetKernelVersion_cases host o procfs with ⟨_, h⟩ | ⟨_, contents, _, _, h⟩ | ⟨_, _, h⟩
  · rw [h]; exact KernelStringToNumeric_range o
  · rw [h]; exact KernelStringToNumeric_range _
  · rw [h]
    cases host.uname with
    | none => exact ⟨by decide, by decide⟩
    | some raw => exact KernelStringToNumeric_range _

theorem toInt64_GetKernelVersion (host : Host) (o procfs : List Char) :
    toInt64 (GetKernelVersion host o procfs).1 = (GetKernelVersion host o procfs).1 := by
  have h := GetKernelVersion_fst_range host o procfs
  exact wrapInt64_of_range _ (by omega) (by omega)

/-! ## Policy queries and variant selection -/

/-- C13, as stated, fails: with the override "4.19.225" the running version is
267233 and its quirk-corrected value 267263; against the threshold "4.19.230"
(267238) the query answers true, the corrected comparison false. -/
theorem IsKernelVersionLessThan_not_corrected :
    IsKernelVersionLessThan ⟨fun _ => none, none⟩
      ⟨false, false, "4.19.225".toList, "/proc".toList⟩ "4.19.230".toList = true ∧
    decide (FixKernelVersion
      (GetKernelVersion ⟨fun _ => none, none⟩ "4.19.225".toList "/proc".toList).1 <
        KernelStringToNumeric "4.19.230".toList) = false := by
  refine ⟨by decide, by decide⟩

/-- C13 amended: the less-than query compares the running version as
discovered, without quirk correction: for every configuration and threshold
`t`, `IsKernelVersionLessThan t` is `v < KernelStringToNumeric t` where `v` is
the version integer `GetKernelVersion` returns for the configured override and
procfs root. -/
theorem IsKernelVersionLessThan_spec (host : Host) (cfg : Config) (t : List Char) :
    IsKernelVersionLessThan host cfg t =
      decide ((GetKernelVersion host cfg.KernelVersion cfg.ProcFS).1 <
        KernelStringToNumeric t) := by
  simp only [IsKernelVersionLessThan, toInt64_GetKernelVersion]

/-- C14: `EnableLargeProgs` is false when force-small is set (whatever
force-large and the probes say); otherwise true when force-large is set;
otherwise the conjunction of the two capability probes. -/
theorem EnableLargeProgs_spec (cfg : Config) (probes : Probes) :
    (cfg.ForceSmallProgs = true → EnableLargeProgs cfg probes = false) ∧
    (cfg.ForceSmallProgs = false → cfg.ForceLargeProgs = true →
      EnableLargeProgs cfg probes = true) ∧
    (cfg.ForceSmallProgs = false → cfg.ForceLargeProgs = false →
      EnableLargeProgs cfg probes =
        (probes.HasProgramLargeSize && probes.HasSignalHelper)) := by
  refine ⟨?_, ?_, ?_⟩
  · intro hs
    simp [EnableLargeProgs, hs]
  · intro hs hl
    simp [EnableLargeProgs, hs, hl]
  · intro hs hl
    simp [EnableLargeProgs, hs, hl]

theorem EnableLargeProgs_spec_witness :
    EnableLargeProgs ⟨true, true, [], "/proc".toList⟩ ⟨true, true⟩ = false ∧
    EnableLargeProgs ⟨false, true, [], "/proc".toList⟩ ⟨false, false⟩ = true ∧
    EnableLargeProgs ⟨false, false, [], "/proc".toList⟩ ⟨true, false⟩ = (true && false) :=
  ⟨(EnableLargeProgs_spec ⟨true, true, [], "/proc".toList⟩ ⟨true, true⟩).1 rfl,
    (EnableLargeProgs_spec ⟨false, true, [], "/proc".toList⟩ ⟨false, false⟩).2.1 rfl rfl,
    (EnableLargeProgs_spec ⟨false, false, [], "/proc".toList⟩ ⟨true, false⟩).2.2 rfl rfl⟩

/-- C15: `EnableV61Progs` is false whenever force-small is set; otherwise it is
true exactly when the version integer of `GetKernelVersion` is at least
`KernelStringToNumeric "6.1.0"` = 393472, that is exactly when
`IsKernelVersionLessThan "6.1.0"` is false.  The force-large flag has no
influence, and the capability probes are not inputs of the function. -/
theorem EnableV61Progs_spec (host : Host) (cfg : Config) :
    (cfg.ForceSmallProgs = true → EnableV61Progs host cfg = false) ∧
    (cfg.ForceSmallProgs = false →
      (EnableV61Progs host cfg = true ↔
        (GetKernelVersion host cfg.KernelVersion cfg.ProcFS).1 ≥ 393472) ∧
      EnableV61Progs host cfg = !IsKernelVersionLessThan host cfg "6.1.0".toList) ∧
    KernelStringToNumeric "6.1.0".toList = 393472 ∧
    (∀ b : Bool, EnableV61Progs host
      ⟨cfg.ForceSmallProgs, b, cfg.KernelVersion, cfg.ProcFS⟩ = EnableV61Progs host cfg) := by
  have h61 : KernelStringToNumeric "6.1.0".toList = 393472 := by decide
  refine ⟨?_, ?_, h61, ?_⟩
  · intro hs
    simp [EnableV61Progs, hs]
  · intro hs
    have hE : EnableV61Progs host cfg =
        decide ((GetKernelVersion host cfg.KernelVersion cfg.ProcFS).1 ≥ 393472) := by
      simp only [EnableV61Progs, hs, Bool.false_eq_true, if_false, toInt64_GetKernelVersion,
        h61]
    have hL : IsKernelVersionLessThan host cfg "6.1.0".toList =
        decide ((GetKernelVersion host cfg.KernelVersion cfg.ProcFS).1 < 393472) := by
      simp only [IsKernelVersionLessThan, toInt64_GetKernelVersion, h61]
    refine ⟨?_, ?_⟩
    · rw [hE, decide_eq_true_iff]
    · rw [hE, hL]
      by_cases hv : (GetKernelVersion host cfg.KernelVersion cfg.ProcFS).1 < 393472
      · simp [hv, not_le.mpr hv]
      · simp [hv, not_lt.mp hv]
  · intro b
    rfl

theorem EnableV61Progs_spec_witness :
    EnableV61Progs ⟨fun _ => none, some "6.8.0".toList⟩ ⟨true, true, [], "/proc".toList⟩ = false ∧
    (EnableV61Progs ⟨fun _ => none, some "6.8.0".toList⟩ ⟨false, false, [], "/proc".toList⟩ = true ↔
      (GetKernelVersion ⟨fun _ => none, some "6.8.0".toList⟩ [] "/proc".toList).1 ≥ 393472) :=
  ⟨(EnableV61Progs_spec ⟨fun _ => none, some "6.8.0".toList⟩
      ⟨true, true, [], "/proc".toList⟩).1 rfl,
    ((EnableV61Progs_spec ⟨fun _ => none, some "6.8.0".toList⟩
      ⟨false, false, [], "/proc".toList⟩).2.1 rfl).1⟩

/-- C16: `GenericKprobeObjs` returns the v61 pair whenever `EnableV61Progs` is
true, even if `EnableLargeProgs` is true too; otherwise the v53 pair when
`EnableLargeProgs` is true; otherwise the baseline pair.  The two names
returned always belong to the same tier. -/
theorem GenericKprobeObjs_spec (host : Host) (cfg : Config) (probes : Probes) :
    (EnableV61Progs host cfg = true → GenericKprobeObjs host cfg probes =
      ("bpf_generic_kprobe_v61.o".toList, "bpf_generic_retkprobe_v61.o".toList)) ∧
    (EnableV61Progs host cfg = false → EnableLargeProgs cfg probes = true →
      GenericKprobeObjs host cfg probes =
        ("bpf_generic_kprobe_v53.o".toList, "bpf_generic_retkprobe_v53.o".toList)) ∧
    (EnableV61Progs host cfg = false → EnableLargeProgs cfg probes = false →
      GenericKprobeObjs host cfg probes =
        ("bpf_generic_kprobe.o".toList, "bpf_generic_retkprobe.o".toList)) ∧
    (GenericKprobeObjs host cfg probes = v61Pair ∨
      GenericKprobeObjs host cfg probes = v53Pair ∨
      GenericKprobeObjs host cfg probes = basePair) := by
  refine ⟨?_, ?_, ?_, ?_⟩
  · intro h
    simp only [GenericKprobeObjs, h, if_true]
  · intro h1 h2
    simp only [GenericKprobeObjs, h1, h2, if_true, Bool.false_eq_true, if_false]
  · intro h1 h2
    simp only [GenericKprobeObjs, h1, h2, Bool.false_eq_true, if_false]
  · unfold GenericKprobeObjs
    split
    · exact Or.inl rfl
    · split
      · exact Or.inr (Or.inl rfl)
      · exact Or.inr (Or.inr rfl)

theorem GenericKprobeObjs_spec_witness :
    EnableV61Progs ⟨fun _ => none, none⟩ ⟨false, true, "6.1.0".toList, []⟩ = true ∧
    EnableLargeProgs ⟨false, true, "6.1.0".toList, []⟩ ⟨true, true⟩ = true ∧
    GenericKprobeObjs ⟨fun _ => none, none⟩ ⟨false, true, "6.1.0".toList, []⟩ ⟨true, true⟩ =
      ("bpf_generic_kprobe_v61.o".toList, "bpf_generic_retkprobe_v61.o".toList) ∧
    GenericKprobeObjs ⟨fun _ => none, none⟩ ⟨false, true, "5.4.0".toList, []⟩ ⟨false, false⟩ =
      ("bpf_generic_kprobe_v53.o".toList, "bpf_generic_retkprobe_v53.o".toList) :=
  ⟨by decide, by decide,
    (GenericKprobeObjs_spec ⟨fun _ => none, none⟩ ⟨false, true, "6.1.0".toList, []⟩
      ⟨true, true⟩).1 (by decide),
    (GenericKprobeObjs_spec ⟨fun _ => none, none⟩ ⟨false, true, "5.4.0".toList, []⟩
      ⟨false, false⟩).2.1 (by decide) (by decide)⟩

/-- C18: whenever the force-small flag is set, `GenericKprobeObjs` returns the
baseline pair, for every force-large flag, every probe result and every
discovered kernel version. -/
theorem GenericKprobeObjs_force_small (host : Host) (cfg : Config) (probes : Probes)
    (hs : cfg.ForceSmallProgs = true) :
    GenericKprobeObjs host cfg probes =
      ("bpf_generic_kprobe.o".toList, "bpf_generic_retkprobe.o".toList) := by
  simp [GenericKprobeObjs, EnableV61Progs, EnableLargeProgs, hs]

theorem GenericKprobeObjs_force_small_witness :
    GenericKprobeObjs ⟨fun _ => some "6.8.0".toList, some "6.8.0".toList⟩
      ⟨true, true, "6.8.0".toList, "/proc".toList⟩ ⟨true, true⟩ =
      ("bpf_generic_kprobe.o".toList, "bpf_generic_retkprobe.o".toList) :=
  GenericKprobeObjs_force_small _ ⟨true, true, "6.8.0".toList, "/proc".toList⟩ _ rfl

/-! ## The preflight check, the sign of the encoding, and the display string -/

theorem KernelStringToNumeric_takeWhile_dash (r : List Char) :
    KernelStringToNumeric (r.takeWhile (fun c => c != '-')) = KernelStringToNumeric r := by
  apply KernelStringToNumeric_congr
  apply versionParts_congr
  rw [headD_Split, headD_Split, takeWhile_of_not_mem _ _ (dash_not_mem_takeWhile r)]

theorem KernelStringToNumeric_snoc_plus (b : List Char) :
    KernelStringToNumeric (b ++ ['+']) = KernelStringToNumeric b := by
  apply KernelStringToNumeric_congr
  apply versionParts_congr
  rw [headD_Split, headD_Split]
  by_cases hb : '-' ∈ b
  · rw [takeWhile_append_of_stop _ b _ ⟨'-', hb, by decide⟩]
  · have hr : '-' ∉ b ++ ['+'] := by
      intro h
      rcases List.mem_append.mp h with h | h
      · exact hb h
      · exact absurd (List.mem_singleton.mp h) (by decide)
    rw [takeWhile_of_not_mem _ _ hr, takeWhile_of_not_mem _ _ hb]
    exact TrimRight_append_replicate b '+' 1

theorem TrimSuffix_cases (s : List Char) (suf : Char) :
    TrimSuffix s suf = s ∨ s = TrimSuffix s suf ++ [suf] := by
  unfold TrimSuffix
  cases hrev : s.reverse with
  | nil => exact Or.inl rfl
  | cons c rest =>
    by_cases hc : c = suf
    · right
      simp only [hc, if_true]
      have : s = (suf :: rest).reverse := by
        rw [← hc, ← hrev, List.reverse_reverse]
      simpa using this
    · left
      simp only [hc, if_false]

theorem KernelStringToNumeric_TrimSuffix (s : List Char) :
    KernelStringToNumeric (TrimSuffix s '+') = KernelStringToNumeric s := by
  rcases TrimSuffix_cases s '+' with h | h
  · rw [h]
  · conv_rhs => rw [h]
    exact (KernelStringToNumeric_snoc_plus _).symm

theorem MinKernelVersion_of_release (host : Host) (k raw : List Char)
    (hun : host.uname = some raw) :
    MinKernelVersion host k =
      decide (KernelStringToNumeric k ≤ KernelStringToNumeric (ByteSliceToString raw)) := by
  simp only [MinKernelVersion, hun, toInt_KernelStringToNumeric, headD_Split,
    KernelStringToNumeric_TrimSuffix, KernelStringToNumeric_takeWhile_dash]

/-- C17: `MinKernelVersion k` is true for every threshold `k` when `uname`
fails; when `uname` succeeds with release string `r` it is exactly
`KernelStringToNumeric k <= KernelStringToNumeric r` (cutting `r` at its first
`-` and trimming one trailing `+` does not change the comparison).  The result
depends on the host only through `uname`: the signature file plays no part,
and the configured override is not an input of the function. -/
theorem MinKernelVersion_spec (k : List Char) :
    (∀ host : Host, host.uname = none → MinKernelVersion host k = true) ∧
    (∀ (host : Host) (raw r : List Char), host.uname = some raw →
      ByteSliceToString raw = r →
        MinKernelVersion host k =
          decide (KernelStringToNumeric k ≤ KernelStringToNumeric r)) ∧
    (∀ host1 host2 : Host, host1.uname = host2.uname →
      MinKernelVersion host1 k = MinKernelVersion host2 k) := by
  refine ⟨?_, ?_, ?_⟩
  · intro host hun
    simp only [MinKernelVersion, hun]
  · intro host raw r hun hr
    rw [← hr]
    exact MinKernelVersion_of_release host k raw hun
  · intro host1 host2 h
    cases hu : host2.uname with
    | none =>
      rw [hu] at h
      simp only [MinKernelVersion, hu, h]
    | some raw =>
      rw [hu] at h
      rw [MinKernelVersion_of_release host1 k raw h, MinKernelVersion_of_release host2 k raw hu]

theorem MinKernelVersion_spec_witness :
    MinKernelVersion ⟨fun _ => some "6.8.0".toList, none⟩ "9.9.9".toList = true ∧
    MinKernelVersion ⟨fun _ => none, some "5.4.0+-42-generic\x00".toList⟩ "5.4".toList =
      decide (KernelStringToNumeric "5.4".toList ≤
        KernelStringToNumeric "5.4.0+-42-generic".toList) :=
  ⟨(MinKernelVersion_spec "9.9.9".toList).1 ⟨fun _ => some "6.8.0".toList, none⟩ rfl,
    (MinKernelVersion_spec "5.4".toList).2.1
      ⟨fun _ => none, some "5.4.0+-42-generic\x00".toList⟩ "5.4.0+-42-generic\x00".toList
      "5.4.0+-42-generic".toList rfl (by decide)⟩

/-- C19: the encoding is never negative: no component parses as negative
(every component is free of `-` and, when it parses, lies in `[0, 2^31)`), the
packed sum stays below `2^48` and so never wraps in `int64`.  Hence 0, the
value of an unparsable version, is the least encoding, and a threshold whose
major component does not parse is satisfied by every running version. -/
theorem KernelStringToNumeric_nonneg :
    (∀ s : List Char, 0 ≤ KernelStringToNumeric s ∧ KernelStringToNumeric s < 2 ^ 48) ∧
    (∀ (s : List Char) (v : Int),
      (ParseInt (versionParts s).1 32 = .ok v ∨ ParseInt (versionParts s).2.1 32 = .ok v ∨
        ParseInt (versionParts s).2.2 32 = .ok v) → 0 ≤ v ∧ v < 2 ^ 31) ∧
    (∀ s t : List Char, majorUnparsable s →
      KernelStringToNumeric s ≤ KernelStringToNumeric t) ∧
    (∀ (host : Host) (k : List Char), majorUnparsable k → MinKernelVersion host k = true) ∧
    (∀ (host : Host) (cfg : Config) (k : List Char), majorUnparsable k →
      IsKernelVersionLessThan host cfg k = false) := by
  have hzero : ∀ s : List Char, majorUnparsable s → KernelStringToNumeric s = 0 := by
    intro s h
    rcases h with h | ⟨e, h⟩
    · apply KernelStringToNumeric_of_error s .ErrSyntax
      rw [versionParts_major, h]
      rfl
    · apply KernelStringToNumeric_of_error s e
      rw [versionParts_major, h]
  refine ⟨KernelStringToNumeric_range, ?_, ?_, ?_, ?_⟩
  · intro s v h
    obtain ⟨h1, h2, h3⟩ := dash_not_mem_versionParts s
    rcases h with h | h | h
    · exact ParseInt_range_of_no_dash _ _ h1 h
    · exact ParseInt_range_of_no_dash _ _ h2 h
    · exact ParseInt_range_of_no_dash _ _ h3 h
  · intro s t h
    rw [hzero s h]
    exact (KernelStringToNumeric_range t).1
  · intro host k h
    cases hu : host.uname with
    | none => simp only [MinKernelVersion, hu]
    | some raw =>
      rw [MinKernelVersion_of_release host k raw hu, hzero k h]
      exact decide_eq_true (KernelStringToNumeric_range _).1
  · intro host cfg k h
    have hv := (GetKernelVersion_fst_range host cfg.KernelVersion cfg.ProcFS).1
    simp only [IsKernelVersionLessThan, toInt64_GetKernelVersion, hzero k h]
    exact decide_eq_false (by omega)

theorem KernelStringToNumeric_nonneg_witness :
    majorUnparsable "v5.4".toList ∧
    KernelStringToNumeric "v5.4".toList ≤ KernelStringToNumeric "0.0.1".toList ∧
    MinKernelVersion ⟨fun _ => none, some "0.0.0".toList⟩ "v5.4".toList = true :=
  ⟨Or.inr ⟨.ErrSyntax, rfl⟩,
    KernelStringToNumeric_nonneg.2.2.1 _ _ (Or.inr ⟨.ErrSyntax, rfl⟩),
    KernelStringToNumeric_nonneg.2.2.2.1 _ _ (Or.inr ⟨.ErrSyntax, rfl⟩)⟩

/-- C20: the display string and the version integer of `GetKernelVersion`
always agree: for every override, signature-file state and `uname` outcome,
encoding the returned display string gives the returned integer (on the
`uname` path the display string is the dash-truncated release, on the failure
path it is "unknown" with integer 0). -/
theorem GetKernelVersion_display_consistent (host : Host) (o procfs : List Char) :
    KernelStringToNumeric (GetKernelVersion host o procfs).2.1 =
      (GetKernelVersion host o procfs).1 := by
  rcases GetKernelVersion_cases host o procfs with ⟨_, h⟩ | ⟨_, contents, _, _, h⟩ | ⟨_, _, h⟩
  · rw [h]
  · rw [h]
  · rw [h]
    cases host.uname with
    | none =>
      show KernelStringToNumeric "unknown".toList = 0
      decide
    | some raw => exact KernelStringToNumeric_takeWhile_dash _

end Kernels
